import Mathlib

/-!
Verification of the Lyra frame/packet pipeline
(`encoder_main_lib.cc`, `decoder_main_lib.cc`).

The embedding models PCM samples (`int16_t`) as `ℤ` and encoded feature
values (`float`) as `ℚ`; for the chunking and accumulation logic the
feature values are opaque payload, so only `PacketSize` — the one place
where `float` arithmetic matters — gets a faithful binary32 model
(mantissa/exponent pairs over `ℕ`, round to nearest, ties to even).

Configuration constants (`kNumFeatures`, `kNumFramesPerPacket`) and the
helper `GetNumSamplesPerHop` live in `lyra_config.h`, which is not among
the sources; they are taken as parameters, as the spec treats them
symbolically.

The codec engine (`LyraEncoder` / `LyraDecoder`) is an external
collaborator created by `Create`; an engine handle is modelled as a
record of response functions.  The engine may be stateful, so each
response is a function of the call index (how many calls of that kind
happened before) as well as of the arguments.

Points where the C++ has no defined behaviour are modelled as `none`:
division by zero when the frame rate is 0, a stride of 0 (the source
loops never advance, hence never terminate), and a strided read past the
end of the feature vector.
-/

namespace Lyra

/-- Engine handle returned by `LyraEncoder::Create`.  `encodeRaw n w` is
the engine's response to the `n`-th `EncodeRaw` call, on window `w`. -/
structure LyraEncoderM where
  frameRate : ℕ
  encodeRaw : ℕ → List ℤ → Option (List ℚ)

/-- Engine handle returned by `LyraDecoder::Create`.  `setEncodedFeatures n p`
and `decodeSamples n c` are the responses to the `n`-th calls. -/
structure LyraDecoderM where
  sampleRateHz : ℕ
  numChannels : ℕ
  setEncodedFeatures : ℕ → List ℚ → Bool
  decodeSamples : ℕ → ℕ → Option (List ℤ)

/-- Modelled from the spec: `NoOpPreprocessor::Process`
(`no_op_preprocessor.h` is not among the sources).  Per §6 of the spec the
no-op preprocessor is the identity on the sample buffer. -/
def NoOpPreprocessorProcess (samples : List ℤ) (_sample_rate_hz : ℕ) : List ℤ :=
  samples

/-- The window loop of `EncodeWav` (encoder_main_lib.cc:76-94).
The C++ loop runs `wav_iterator` from 0 in steps of `spp` while
`wav_iterator + spp <= processed_data.size()`; here the already-consumed
prefix is dropped instead of keeping an index, so the loop condition
becomes `spp ≤ data.length`.  `n` is the call index.  With `spp = 0` the
source loop never advances (and never terminates): modelled as `none`. -/
def encodeLoop (spp : ℕ) (enc : ℕ → List ℤ → Option (List ℚ)) (n : ℕ)
    (data : List ℤ) (acc : List ℚ) : Option (List ℚ × Bool) :=
  if spp = 0 then none
  else if _h : spp ≤ data.length then
    match enc n (data.take spp) with
    | none => some (acc, false)
    | some packet => encodeLoop spp enc (n + 1) (data.drop spp) (acc ++ packet)
  else some (acc, true)
termination_by data.length
decreasing_by simp [List.length_drop]; omega

/-- `EncodeWav` (encoder_main_lib.cc:45-101).  `LyraEncoder::Create` is
external; its result is the `create` parameter.  `num_channels`,
`enable_dtx` and `model_path` only feed `Create` and are absorbed into
it.  On creation failure the function returns `false` before touching
the data (line 54-57); the stride is
`kNumFramesPerPacket * sample_rate_hz / frame_rate` in C++ `int`
division (line 72-73), which divides by zero when the frame rate is 0 —
modelled as `none`. -/
def EncodeWav (kNumFramesPerPacket : ℕ) (create : Option LyraEncoderM)
    (wav_data : List ℤ) (sample_rate_hz : ℕ) (enable_preprocessing : Bool)
    (encoded_raw_features : List ℚ) : Option (List ℚ × Bool) :=
  match create with
  | none => some (encoded_raw_features, false)
  | some encoder =>
    let processed_data :=
      if enable_preprocessing then NoOpPreprocessorProcess wav_data sample_rate_hz
      else wav_data
    if encoder.frameRate = 0 then none
    else
      encodeLoop (kNumFramesPerPacket * sample_rate_hz / encoder.frameRate)
        encoder.encodeRaw 0 processed_data encoded_raw_features

/-- The stride loop of `DecodeFeatures` (decoder_main_lib.cc:61-84).
The C++ loop runs `encoded_index` from 0 in steps of `kNF` while
`encoded_index < features.size()`, and unconditionally forms the span
`[encoded_index, encoded_index + kNF)`: when fewer than `kNF` values
remain, that span reads past the end of the vector — modelled as `none`.
With `kNF = 0` the loop never advances: also `none`. -/
def decodeLoop (kNF spp : ℕ) (setF : ℕ → List ℚ → Bool)
    (dec : ℕ → ℕ → Option (List ℤ)) (n : ℕ) (features : List ℚ)
    (acc : List ℤ) : Option (List ℤ × Bool) :=
  if features.length = 0 then some (acc, true)
  else if kNF = 0 then none
  else if _h : kNF ≤ features.length then
    if setF n (features.take kNF) then
      match dec n spp with
      | none => some (acc, false)
      | some decoded =>
        decodeLoop kNF spp setF dec (n + 1) (features.drop kNF) (acc ++ decoded)
    else some (acc, false)
  else none
termination_by features.length
decreasing_by simp [List.length_drop]; omega

/-- `DecodeFeatures` (decoder_main_lib.cc:53-91).  `kNumFeatures`,
`kNumFramesPerPacket` and `GetNumSamplesPerHop` come from
`lyra_config.h` (not among the sources) and are parameters.  The
`packet_loss_rate` and `average_burst_length` arguments are declared by
the source but never read in the body — they appear here for the same
reason. -/
def DecodeFeatures (kNumFeatures kNumFramesPerPacket : ℕ)
    (getNumSamplesPerHop : ℕ → ℕ) (features : List ℚ)
    (_packet_loss_rate _average_burst_length : ℚ) (decoder : LyraDecoderM)
    (decoded_audio : List ℤ) : Option (List ℤ × Bool) :=
  let num_samples_per_packet :=
    kNumFramesPerPacket * getNumSamplesPerHop decoder.sampleRateHz
  decodeLoop kNumFeatures num_samples_per_packet decoder.setEncodedFeatures
    decoder.decodeSamples 0 features decoded_audio

/-! ### Binary32 model for `PacketSize`

`PacketSize` (decoder_main_lib.cc:44-49) computes
`ceil(float(bitrate) / frame_rate * kNumFramesPerPacket / CHAR_BIT)` in
single-precision `float` arithmetic.  A nonnegative binary32 value is
represented exactly as a pair `(M, t) : ℕ × ℤ` standing for `M * 2 ^ t`
with `2^23 ≤ M ≤ 2^24` when the value is nonzero (`M = 0` encodes 0).
The exponent is unbounded: every value reachable from `int` inputs lies
in binary32's normal range, so overflow/underflow never bites here.
Each IEEE operation is the correctly rounded exact result (round to
nearest, ties to even), which is what `flQ` computes. -/

/-- `⌊log2 n⌋` for `n ≥ 1`, by structural recursion on a fuel argument
(so that it reduces inside the kernel). -/
def natLog2Aux : ℕ → ℕ → ℕ
  | 0, _ => 0
  | fuel + 1, n => if n < 2 then 0 else 1 + natLog2Aux fuel (n / 2)

/-- `⌊log2 n⌋` for `n ≥ 1` (0 for 0). -/
def natLog2 (n : ℕ) : ℕ := natLog2Aux n n

/-- Round the positive rational `p / q` (with `p, q ≥ 1`; `p = 0` yields 0)
to the nearest binary32 value, ties to even: the result `(M, t)` stands
for `M * 2 ^ t`. -/
def flQ (p q : ℕ) : ℕ × ℤ :=
  let a := natLog2 p
  let b := natLog2 q
  -- e = ⌊log2 (p/q)⌋; from 2^a ≤ p < 2^(a+1), 2^b ≤ q < 2^(b+1) it is
  -- a - b when p/q ≥ 2^(a-b) and a - b - 1 otherwise.
  let e : ℤ :=
    if (if b ≤ a then p < 2 ^ (a - b) * q else p * 2 ^ (b - a) < q) then
      (a : ℤ) - b - 1
    else (a : ℤ) - b
  -- y = (p/q) / 2^(e-23) written as the fraction num/den
  let num := if e ≤ 23 then p * 2 ^ (23 - e).toNat else p
  let den := if e ≤ 23 then q else q * 2 ^ (e - 23).toNat
  -- round y to the nearest integer, ties to even
  let n := num / den
  let r := num % den
  let M := if 2 * r < den then n
           else if den < 2 * r then n + 1
           else if n % 2 = 0 then n else n + 1
  (M, e - 23)

/-- The exact quotient of two represented values, as a fraction. -/
def fracDiv (x y : ℕ × ℤ) : ℕ × ℕ :=
  if y.2 ≤ x.2 then (x.1 * 2 ^ (x.2 - y.2).toNat, y.1)
  else (x.1, y.1 * 2 ^ (y.2 - x.2).toNat)

/-- The exact product of two represented values, as a fraction. -/
def fracMul (x y : ℕ × ℤ) : ℕ × ℕ :=
  if 0 ≤ x.2 + y.2 then (x.1 * y.1 * 2 ^ (x.2 + y.2).toNat, 1)
  else (x.1 * y.1, 2 ^ (-(x.2 + y.2)).toNat)

/-- IEEE binary32 division: the correctly rounded exact quotient. -/
def floatDivF (x y : ℕ × ℤ) : ℕ × ℤ := flQ (fracDiv x y).1 (fracDiv x y).2

/-- IEEE binary32 multiplication: the correctly rounded exact product. -/
def floatMulF (x y : ℕ × ℤ) : ℕ × ℤ := flQ (fracMul x y).1 (fracMul x y).2

/-- `static_cast<float>` of a nonnegative `int`. -/
def floatOfNat (n : ℕ) : ℕ × ℤ := flQ n 1

/-- `static_cast<int>(std::ceil(·))` of a nonnegative represented value. -/
def ceilFloat (x : ℕ × ℤ) : ℕ :=
  if 0 ≤ x.2 then x.1 * 2 ^ x.2.toNat
  else (x.1 + 2 ^ (-x.2).toNat - 1) / 2 ^ (-x.2).toNat

/-- The value of the float preceding the final `ceil` in `PacketSize`:
`float(bitrate) / frame_rate * kNumFramesPerPacket` (left-associated, as
in C++), then `/ CHAR_BIT`, every step correctly rounded. -/
def bytesPerPacketF (bitrate frameRate kNumFramesPerPacket : ℕ) : ℕ × ℤ :=
  floatDivF
    (floatMulF (floatDivF (floatOfNat bitrate) (floatOfNat frameRate))
      (floatOfNat kNumFramesPerPacket))
    (floatOfNat 8)

/-- `PacketSize` (decoder_main_lib.cc:44-49), on the decoder's `bitrate`
and `frame_rate` accessors and the constant `kNumFramesPerPacket`.
`CHAR_BIT = 8`.  When the frame rate is 0 the `float` division yields
infinity and the final cast of `ceil(inf)` to `int` has no defined
value: modelled as `none`. -/
def PacketSize (bitrate frameRate kNumFramesPerPacket : ℕ) : Option ℕ :=
  if frameRate = 0 then none
  else some (ceilFloat (bytesPerPacketF bitrate frameRate kNumFramesPerPacket))

/-- The packet size the spec's words prescribe (§8.1): the exact
mathematical ceiling of `bitrate × framesPerPacket / (frameRate × 8)`.
Stated from the spec, for comparison with `PacketSize`. -/
def PacketSizeSpec (bitrate frameRate kNumFramesPerPacket : ℕ) : Option ℤ :=
  if frameRate = 0 then none
  else some ⌈((bitrate : ℚ) * kNumFramesPerPacket) / ((frameRate : ℚ) * 8)⌉

/-- `2 ^ t` in `ℚ`, written without `zpow` so that it unfolds plainly. -/
def pow2 (t : ℤ) : ℚ :=
  if 0 ≤ t then ((2 ^ t.toNat : ℕ) : ℚ) else 1 / ((2 ^ (-t).toNat : ℕ) : ℚ)

/-- The rational value denoted by a represented binary32. -/
def fracVal (x : ℕ × ℤ) : ℚ := (x.1 : ℚ) * pow2 x.2

/-! ### File orchestration (`EncodeFile`, `DecodeFile`)

For claim C8 only the order of the collaborator calls matters; each call
is recorded as an event.  Container collaborators are modelled by their
results: `readResult` for `Read16BitWavFileToVector`, `loadedFeatures`
for `cnpy::npz_load`, `writeOk` for `Write16BitWavFileFromVector`. -/

inductive IOEvent
  | readWav
  | createEncoder
  | npzSave
  | createDecoder
  | npzLoad
  | writeWav
  deriving DecidableEq, Repr

/-- `EncodeFile` (encoder_main_lib.cc:103-131): it reads the WAV file
first (line 108-109), then calls `EncodeWav`, whose first action is to
attempt engine creation; on success it saves the features (line 128). -/
def EncodeFile (kNumFramesPerPacket : ℕ) (readResult : Option (List ℤ × ℕ))
    (create : Option LyraEncoderM) (enable_preprocessing : Bool) :
    Option (List IOEvent × Bool) :=
  match readResult with
  | none => some ([IOEvent.readWav], false)
  | some (samples, sample_rate_hz) =>
    match EncodeWav kNumFramesPerPacket create samples sample_rate_hz
        enable_preprocessing [] with
    | none => none
    | some (_, false) => some ([IOEvent.readWav, IOEvent.createEncoder], false)
    | some (_, true) =>
      some ([IOEvent.readWav, IOEvent.createEncoder, IOEvent.npzSave], true)

/-- `DecodeFile` (decoder_main_lib.cc:93-126): it attempts decoder
creation first (line 97-102) and returns before any I/O if that fails;
then loads the features (line 104), runs `DecodeFeatures`, and writes
the WAV file (line 118-120). -/
def DecodeFile (kNumFeatures kNumFramesPerPacket : ℕ)
    (getNumSamplesPerHop : ℕ → ℕ) (create : Option LyraDecoderM)
    (loadedFeatures : List ℚ) (packet_loss_rate average_burst_length : ℚ)
    (writeOk : Bool) : Option (List IOEvent × Bool) :=
  match create with
  | none => some ([IOEvent.createDecoder], false)
  | some decoder =>
    match DecodeFeatures kNumFeatures kNumFramesPerPacket getNumSamplesPerHop
        loadedFeatures packet_loss_rate average_burst_length decoder [] with
    | none => none
    | some (_, false) => some ([IOEvent.createDecoder, IOEvent.npzLoad], false)
    | some (_, true) =>
      some ([IOEvent.createDecoder, IOEvent.npzLoad, IOEvent.writeWav], writeOk)

/-! ### Loop lemmas -/

/-- The `i`-th window of the tail `data.drop spp` is the `(i+1)`-th window
of `data`. -/
theorem drop_take_shift {α : Type} (data : List α) (spp i : ℕ) :
    ((data.drop spp).drop (i * spp)).take spp
      = (data.drop ((i + 1) * spp)).take spp := by
  rw [List.drop_drop, Nat.succ_mul, Nat.add_comm]

/-- Flattening a list of lists of equal length `c`. -/
theorem flatten_length_const {α : Type} (c : ℕ) (L : List (List α))
    (h : ∀ l ∈ L, l.length = c) : L.flatten.length = L.length * c := by
  induction L with
  | nil => simp
  | cons a L ih =>
    simp only [List.flatten_cons, List.length_append, List.length_cons]
    rw [h a (by simp), ih (fun l hl => h l (by simp [hl]))]
    ring

/-- On a buffer of `m` complete windows plus `r < spp` trailing samples,
an always-succeeding engine makes `encodeLoop` consume exactly the `m`
windows in order and report success. -/
theorem encodeLoop_success (spp : ℕ) (enc : ℕ → List ℤ → Option (List ℚ))
    (f : ℕ → List ℤ → List ℚ) (r : ℕ)
    (hsucc : ∀ k w, enc k w = some (f k w)) (hr : r < spp) :
    ∀ (m n : ℕ) (data : List ℤ) (acc : List ℚ),
      data.length = m * spp + r →
      encodeLoop spp enc n data acc =
        some (acc ++ (List.flatten ((List.range m).map
          (fun i => f (n + i) ((data.drop (i * spp)).take spp)))), true) := by
  intro m
  induction m with
  | zero =>
    intro n data acc hlen
    rw [encodeLoop]
    have h0 : ¬ spp = 0 := by omega
    have h1 : ¬ spp ≤ data.length := by omega
    simp [h0, h1]
  | succ m ih =>
    intro n data acc hlen
    have h0 : ¬ spp = 0 := by omega
    have hmul : (m + 1) * spp = m * spp + spp := Nat.succ_mul _ _
    have h1 : spp ≤ data.length := by omega
    rw [encodeLoop]
    simp only [h0, if_false, h1, dif_pos, hsucc n (data.take spp)]
    rw [ih (n + 1) (data.drop spp) (acc ++ f n (data.take spp))
      (by rw [List.length_drop]; omega)]
    have hsh : ∀ i, (((data.drop spp).drop (i * spp)).take spp)
        = (data.drop ((i + 1) * spp)).take spp := drop_take_shift data spp
    have hidx : ∀ i : ℕ, n + 1 + i = n + (i + 1) := by omega
    simp only [List.range_succ_eq_map, List.map_cons, List.map_map,
      List.flatten_cons, List.drop_zero, Nat.add_zero, Function.comp_def,
      Nat.succ_eq_add_one, Nat.zero_mul, hsh, hidx, List.append_assoc]

/-- If the engine answers the first `j` windows and refuses window `j`
(which the buffer does contain), `encodeLoop` stops at window `j` with
exactly the packets of the first `j` windows appended. -/
theorem encodeLoop_fail (spp : ℕ) (enc : ℕ → List ℤ → Option (List ℚ))
    (h0 : spp ≠ 0) :
    ∀ (j : ℕ) (g : ℕ → List ℚ) (n : ℕ) (data : List ℤ) (acc : List ℚ),
      (j + 1) * spp ≤ data.length →
      (∀ k, k < j → enc (n + k) ((data.drop (k * spp)).take spp) = some (g k)) →
      enc (n + j) ((data.drop (j * spp)).take spp) = none →
      encodeLoop spp enc n data acc =
        some (acc ++ List.flatten ((List.range j).map g), false) := by
  intro j
  induction j with
  | zero =>
    intro g n data acc hle _hpre hfail
    have h1 : spp ≤ data.length := by omega
    rw [encodeLoop]
    simp only [List.drop_zero, Nat.add_zero, Nat.zero_mul] at hfail
    simp [h0, h1, hfail]
  | succ j ih =>
    intro g n data acc hle hpre hfail
    have hmul : (j + 1 + 1) * spp = (j + 1) * spp + spp := Nat.succ_mul _ _
    have hmul' : (j + 1) * spp = j * spp + spp := Nat.succ_mul _ _
    have h1 : spp ≤ data.length := by omega
    have hhead : enc n (data.take spp) = some (g 0) := by
      have := hpre 0 (by omega)
      simpa using this
    rw [encodeLoop]
    simp only [h0, if_false, h1, dif_pos, hhead]
    rw [ih (fun k => g (k + 1)) (n + 1) (data.drop spp) (acc ++ g 0)
      (by rw [List.length_drop]; omega)
      (by
        intro k hk
        have := hpre (k + 1) (by omega)
        rw [drop_take_shift]
        have hidx : n + 1 + k = n + (k + 1) := by omega
        rw [hidx]
        exact this)
      (by
        rw [drop_take_shift]
        have hidx : n + 1 + j = n + (j + 1) := by omega
        rw [hidx]
        exact hfail)]
    simp only [List.range_succ_eq_map, List.map_cons, List.map_map,
      List.flatten_cons, Function.comp_def, Nat.succ_eq_add_one,
      List.append_assoc]

/-- On a feature vector of exactly `m` packets, an always-succeeding
decoder makes `decodeLoop` consume the `m` packets in order and report
success. -/
theorem decodeLoop_success (kNF spp : ℕ) (setF : ℕ → List ℚ → Bool)
    (dec : ℕ → ℕ → Option (List ℤ)) (g : ℕ → List ℤ)
    (hset : ∀ k p, setF k p = true) (hdec : ∀ k, dec k spp = some (g k))
    (h0 : kNF ≠ 0) :
    ∀ (m n : ℕ) (features : List ℚ) (acc : List ℤ),
      features.length = m * kNF →
      decodeLoop kNF spp setF dec n features acc =
        some (acc ++ List.flatten ((List.range m).map (fun i => g (n + i))),
          true) := by
  intro m
  induction m with
  | zero =>
    intro n features acc hlen
    rw [decodeLoop]
    simp at hlen
    simp [hlen]
  | succ m ih =>
    intro n features acc hlen
    have hmul : (m + 1) * kNF = m * kNF + kNF := Nat.succ_mul _ _
    have hne : ¬ features.length = 0 := by omega
    have h1 : kNF ≤ features.length := by omega
    rw [decodeLoop]
    simp only [hne, if_false, h0, h1, dif_pos, hset n (features.take kNF),
      if_true, hdec n]
    rw [ih (n + 1) (features.drop kNF) (acc ++ g n)
      (by rw [List.length_drop]; omega)]
    have hidx : ∀ i : ℕ, n + 1 + i = n + (i + 1) := by omega
    simp only [List.range_succ_eq_map, List.map_cons, List.map_map,
      List.flatten_cons, Nat.add_zero, Function.comp_def,
      Nat.succ_eq_add_one, hidx, List.append_assoc]

/-- If the decoder handles the first `j` packets and fails at packet `j`
(either `SetEncodedFeatures` returning false or `DecodeSamples` returning
nothing), `decodeLoop` stops there with exactly the samples of the first
`j` packets appended. -/
theorem decodeLoop_fail (kNF spp : ℕ) (setF : ℕ → List ℚ → Bool)
    (dec : ℕ → ℕ → Option (List ℤ)) (h0 : kNF ≠ 0) :
    ∀ (j : ℕ) (g : ℕ → List ℤ) (n : ℕ) (features : List ℚ) (acc : List ℤ),
      (j + 1) * kNF ≤ features.length →
      (∀ k, k < j → setF (n + k) ((features.drop (k * kNF)).take kNF) = true ∧
        dec (n + k) spp = some (g k)) →
      (setF (n + j) ((features.drop (j * kNF)).take kNF) = false ∨
        (setF (n + j) ((features.drop (j * kNF)).take kNF) = true ∧
          dec (n + j) spp = none)) →
      decodeLoop kNF spp setF dec n features acc =
        some (acc ++ List.flatten ((List.range j).map g), false) := by
  intro j
  induction j with
  | zero =>
    intro g n features acc hle _hpre hfail
    have hne : ¬ features.length = 0 := by omega
    have h1 : kNF ≤ features.length := by omega
    rw [decodeLoop]
    simp only [Nat.zero_mul, List.drop_zero, Nat.add_zero] at hfail
    rcases hfail with hf | ⟨hs, hd⟩
    · simp [hne, h0, h1, hf]
    · simp [hne, h0, h1, hs, hd]
  | succ j ih =>
    intro g n features acc hle hpre hfail
    have hmul : (j + 1 + 1) * kNF = (j + 1) * kNF + kNF := Nat.succ_mul _ _
    have hmul' : (j + 1) * kNF = j * kNF + kNF := Nat.succ_mul _ _
    have hne : ¬ features.length = 0 := by omega
    have h1 : kNF ≤ features.length := by omega
    have hhead := hpre 0 (by omega)
    simp only [Nat.zero_mul, List.drop_zero, Nat.add_zero] at hhead
    rw [decodeLoop]
    simp only [hne, if_false, h0, h1, dif_pos, hhead.1, if_true, hhead.2]
    rw [ih (fun k => g (k + 1)) (n + 1) (features.drop kNF) (acc ++ g 0)
      (by rw [List.length_drop]; omega)
      (by
        intro k hk
        have := hpre (k + 1) (by omega)
        rw [drop_take_shift]
        have hidx : n + 1 + k = n + (k + 1) := by omega
        rw [hidx]
        exact this)
      (by
        rw [drop_take_shift]
        have hidx : n + 1 + j = n + (j + 1) := by omega
        rw [hidx]
        exact hfail)]
    simp only [List.range_succ_eq_map, List.map_cons, List.map_map,
      List.flatten_cons, Function.comp_def, Nat.succ_eq_add_one,
      List.append_assoc]

/-- On a feature vector whose length is `m` packets plus a nonempty
remainder `r < kNF`, an always-succeeding decoder drives `decodeLoop`
into the out-of-bounds strided read: no defined result. -/
theorem decodeLoop_oob (kNF spp : ℕ) (setF : ℕ → List ℚ → Bool)
    (dec : ℕ → ℕ → Option (List ℤ)) (r : ℕ)
    (hset : ∀ k p, setF k p = true) (hdec : ∀ k, ∃ s, dec k spp = some s)
    (hr0 : 0 < r) (hr : r < kNF) :
    ∀ (m n : ℕ) (features : List ℚ) (acc : List ℤ),
      features.length = m * kNF + r →
      decodeLoop kNF spp setF dec n features acc = none := by
  intro m
  induction m with
  | zero =>
    intro n features acc hlen
    have hne : ¬ features.length = 0 := by omega
    have h0 : kNF ≠ 0 := by omega
    have h1 : ¬ kNF ≤ features.length := by omega
    rw [decodeLoop]
    simp [hne, h0, h1]
  | succ m ih =>
    intro n features acc hlen
    have hmul : (m + 1) * kNF = m * kNF + kNF := Nat.succ_mul _ _
    have hne : ¬ features.length = 0 := by omega
    have h0 : kNF ≠ 0 := by omega
    have h1 : kNF ≤ features.length := by omega
    obtain ⟨s, hs⟩ := hdec n
    rw [decodeLoop]
    simp only [hne, if_false, h0, h1, dif_pos, hset n (features.take kNF),
      if_true, hs]
    exact ih (n + 1) (features.drop kNF) (acc ++ s)
      (by rw [List.length_drop]; omega)

/-- Whatever happens, `encodeLoop` only ever appends to the accumulator. -/
theorem encodeLoop_acc (spp : ℕ) (enc : ℕ → List ℤ → Option (List ℚ)) :
    ∀ (L : ℕ) (data : List ℤ), data.length ≤ L →
      ∀ (n : ℕ) (acc out : List ℚ) (b : Bool),
        encodeLoop spp enc n data acc = some (out, b) →
        ∃ t, out = acc ++ t := by
  intro L
  induction L with
  | zero =>
    intro data hlen n acc out b h
    rw [encodeLoop] at h
    rcases Nat.eq_zero_or_pos spp with h0 | h0
    · simp [h0] at h
    · have h1 : ¬ spp ≤ data.length := by omega
      have h0' : ¬ spp = 0 := by omega
      simp [h0', h1] at h
      exact ⟨[], by simp [h.1]⟩
  | succ L ih =>
    intro data hlen n acc out b h
    rw [encodeLoop] at h
    by_cases h0 : spp = 0
    · simp [h0] at h
    · by_cases h1 : spp ≤ data.length
      · simp only [h0, if_false, h1, dif_pos] at h
        cases he : enc n (data.take spp) with
        | none =>
          rw [he] at h
          simp at h
          exact ⟨[], by simp [h.1]⟩
        | some packet =>
          rw [he] at h
          obtain ⟨t, ht⟩ := ih (data.drop spp)
            (by rw [List.length_drop]; omega) (n + 1) (acc ++ packet) out b h
          exact ⟨packet ++ t, by simp [ht]⟩
      · simp [h0, h1] at h
        exact ⟨[], by simp [h.1]⟩

/-- Whatever happens, `decodeLoop` only ever appends to the accumulator. -/
theorem decodeLoop_acc (kNF spp : ℕ) (setF : ℕ → List ℚ → Bool)
    (dec : ℕ → ℕ → Option (List ℤ)) :
    ∀ (L : ℕ) (features : List ℚ), features.length ≤ L →
      ∀ (n : ℕ) (acc out : List ℤ) (b : Bool),
        decodeLoop kNF spp setF dec n features acc = some (out, b) →
        ∃ t, out = acc ++ t := by
  intro L
  induction L with
  | zero =>
    intro features hlen n acc out b h
    rw [decodeLoop] at h
    have hne : features.length = 0 := by omega
    simp [hne] at h
    exact ⟨[], by simp [h.1]⟩
  | succ L ih =>
    intro features hlen n acc out b h
    rw [decodeLoop] at h
    by_cases hne : features.length = 0
    · simp [hne] at h
      exact ⟨[], by simp [h.1]⟩
    · by_cases h0 : kNF = 0
      · simp [hne, h0] at h
      · by_cases h1 : kNF ≤ features.length
        · simp only [hne, if_false, h0, h1, dif_pos] at h
          by_cases hs : setF n (features.take kNF) = true
          · rw [if_pos hs] at h
            cases hd : dec n spp with
            | none =>
              rw [hd] at h
              simp at h
              exact ⟨[], by simp [h.1]⟩
            | some decoded =>
              rw [hd] at h
              obtain ⟨t, ht⟩ := ih (features.drop kNF)
                (by rw [List.length_drop]; omega) (n + 1) (acc ++ decoded)
                out b h
              exact ⟨decoded ++ t, by simp [ht]⟩
          · rw [if_neg hs] at h
            simp at h
            exact ⟨[], by simp [h.1]⟩
        · simp [hne, h0, h1] at h

/-- With a successfully created engine and a nonzero frame rate,
`EncodeWav` is its window loop: the no-op preprocessor leaves the buffer
unchanged whether or not preprocessing is enabled. -/
theorem encodeWav_some (kNFP : ℕ) (encoder : LyraEncoderM) (wav_data : List ℤ)
    (sr : ℕ) (pre : Bool) (acc : List ℚ) (hfr : encoder.frameRate ≠ 0) :
    EncodeWav kNFP (some encoder) wav_data sr pre acc
      = encodeLoop (kNFP * sr / encoder.frameRate) encoder.encodeRaw 0
          wav_data acc := by
  cases pre <;> simp [EncodeWav, NoOpPreprocessorProcess, hfr]

/-! ### Claim theorems -/

/-- C2: for a sample buffer of length `m * samplesPerPacket + r` with
`r < samplesPerPacket` and an engine whose per-window encode always
succeeds, `EncodeWav` processes exactly `m` windows of `samplesPerPacket`
samples each, advancing by that stride from index 0, appends the `m`
packets (`m * kNumFeatures` values) in window order, returns success,
and silently drops the trailing `r` samples. -/
theorem encodeWav_exact_windows (kNumFeatures kNumFramesPerPacket : ℕ)
    (encoder : LyraEncoderM) (f : ℕ → List ℤ → List ℚ) (wav_data : List ℤ)
    (sample_rate_hz : ℕ) (enable_preprocessing : Bool) (acc : List ℚ)
    (m r spp : ℕ) (hfr : encoder.frameRate ≠ 0)
    (hspp : spp = kNumFramesPerPacket * sample_rate_hz / encoder.frameRate)
    (hlen : wav_data.length = m * spp + r) (hr : r < spp)
    (hsucc : ∀ k w, encoder.encodeRaw k w = some (f k w))
    (hplen : ∀ k w, (f k w).length = kNumFeatures) :
    ∃ out,
      EncodeWav kNumFramesPerPacket (some encoder) wav_data sample_rate_hz
          enable_preprocessing acc = some (out, true) ∧
      out = acc ++ List.flatten ((List.range m).map
        (fun i => f i ((wav_data.drop (i * spp)).take spp))) ∧
      out.length = acc.length + m * kNumFeatures := by
  refine ⟨_, ?_, rfl, ?_⟩
  · rw [encodeWav_some _ _ _ _ _ _ hfr, ← hspp]
    have h := encodeLoop_success spp encoder.encodeRaw f r hsucc hr m 0
      wav_data acc hlen
    simpa using h
  · rw [List.length_append,
      flatten_length_const kNumFeatures _ (by
        intro l hl
        simp only [List.mem_map] at hl
        obtain ⟨i, _, rfl⟩ := hl
        exact hplen _ _)]
    simp

/-- C3: if the engine encodes the first `j` windows and fails on window
`j` (which the buffer contains in full), `EncodeWav` returns failure,
processes no window after `j`, and the output holds exactly
`j * kNumFeatures` values — the packets of the prior successful windows
and nothing else. -/
theorem encodeWav_abort_on_window_failure (kNumFeatures kNumFramesPerPacket : ℕ)
    (encoder : LyraEncoderM) (g : ℕ → List ℚ) (wav_data : List ℤ)
    (sample_rate_hz : ℕ) (enable_preprocessing : Bool) (acc : List ℚ)
    (j spp : ℕ) (hfr : encoder.frameRate ≠ 0)
    (hspp : spp = kNumFramesPerPacket * sample_rate_hz / encoder.frameRate)
    (hspp0 : spp ≠ 0) (hwin : (j + 1) * spp ≤ wav_data.length)
    (hsucc : ∀ k, k < j →
      encoder.encodeRaw k ((wav_data.drop (k * spp)).take spp) = some (g k))
    (hfail : encoder.encodeRaw j ((wav_data.drop (j * spp)).take spp) = none)
    (hplen : ∀ k, (g k).length = kNumFeatures) :
    ∃ out,
      EncodeWav kNumFramesPerPacket (some encoder) wav_data sample_rate_hz
          enable_preprocessing acc = some (out, false) ∧
      out = acc ++ List.flatten ((List.range j).map g) ∧
      out.length = acc.length + j * kNumFeatures := by
  refine ⟨_, ?_, rfl, ?_⟩
  · rw [encodeWav_some _ _ _ _ _ _ hfr, ← hspp]
    exact encodeLoop_fail spp encoder.encodeRaw hspp0 j g 0 wav_data acc hwin
      (by intro k hk; simpa using hsucc k hk) (by simpa using hfail)
  · rw [List.length_append,
      flatten_length_const kNumFeatures _ (by
        intro l hl
        simp only [List.mem_map] at hl
        obtain ⟨i, _, rfl⟩ := hl
        exact hplen _)]
    simp

/-- C4: the decode-side mirror.  On a feature vector of `m` complete
packets with an always-succeeding decoder that returns
`samplesPerPacket` samples per call, `DecodeFeatures` processes exactly
`m` strides in order, appends `m * samplesPerPacket` samples, and
returns success; and if `SetEncodedFeatures` or `DecodeSamples` fails at
stride `j`, it returns failure at once with exactly
`j * samplesPerPacket` samples accumulated. -/
theorem decodeFeatures_mirror (kNumFeatures kNumFramesPerPacket : ℕ)
    (getHop : ℕ → ℕ) :
    (∀ (decoder : LyraDecoderM) (features : List ℚ) (g : ℕ → List ℤ)
        (plr abl : ℚ) (acc : List ℤ) (m spp : ℕ),
      spp = kNumFramesPerPacket * getHop decoder.sampleRateHz →
      kNumFeatures ≠ 0 → features.length = m * kNumFeatures →
      (∀ k p, decoder.setEncodedFeatures k p = true) →
      (∀ k, decoder.decodeSamples k spp = some (g k)) →
      (∀ k, (g k).length = spp) →
      ∃ out,
        DecodeFeatures kNumFeatures kNumFramesPerPacket getHop features
            plr abl decoder acc = some (out, true) ∧
        out = acc ++ List.flatten ((List.range m).map g) ∧
        out.length = acc.length + m * spp) ∧
    (∀ (decoder : LyraDecoderM) (features : List ℚ) (g : ℕ → List ℤ)
        (plr abl : ℚ) (acc : List ℤ) (j spp : ℕ),
      spp = kNumFramesPerPacket * getHop decoder.sampleRateHz →
      kNumFeatures ≠ 0 → (j + 1) * kNumFeatures ≤ features.length →
      (∀ k, k < j →
        decoder.setEncodedFeatures k
            ((features.drop (k * kNumFeatures)).take kNumFeatures) = true ∧
          decoder.decodeSamples k spp = some (g k)) →
      (decoder.setEncodedFeatures j
          ((features.drop (j * kNumFeatures)).take kNumFeatures) = false ∨
        (decoder.setEncodedFeatures j
            ((features.drop (j * kNumFeatures)).take kNumFeatures) = true ∧
          decoder.decodeSamples j spp = none)) →
      (∀ k, (g k).length = spp) →
      ∃ out,
        DecodeFeatures kNumFeatures kNumFramesPerPacket getHop features
            plr abl decoder acc = some (out, false) ∧
        out = acc ++ List.flatten ((List.range j).map g) ∧
        out.length = acc.length + j * spp) := by
  constructor
  · intro decoder features g plr abl acc m spp hspp h0 hlen hset hdec hglen
    refine ⟨_, ?_, rfl, ?_⟩
    · simp only [DecodeFeatures]
      rw [← hspp]
      have h := decodeLoop_success kNumFeatures spp decoder.setEncodedFeatures
        decoder.decodeSamples g hset hdec h0 m 0 features acc hlen
      simpa using h
    · rw [List.length_append,
        flatten_length_const spp _ (by
          intro l hl
          simp only [List.mem_map] at hl
          obtain ⟨i, _, rfl⟩ := hl
          exact hglen _)]
      simp
  · intro decoder features g plr abl acc j spp hspp h0 hwin hpre hfail hglen
    refine ⟨_, ?_, rfl, ?_⟩
    · simp only [DecodeFeatures]
      rw [← hspp]
      exact decodeLoop_fail kNumFeatures spp decoder.setEncodedFeatures
        decoder.decodeSamples h0 j g 0 features acc hwin
        (by intro k hk; simpa using hpre k hk) (by simpa using hfail)
    · rw [List.length_append,
        flatten_length_const spp _ (by
          intro l hl
          simp only [List.mem_map] at hl
          obtain ⟨i, _, rfl⟩ := hl
          exact hglen _)]
      simp

/-- C9: `DecodeFeatures` never reads `packet_loss_rate` or
`average_burst_length`: two runs differing only in those two arguments
return the identical result and accumulate the identical output.  The
proof is definitional because the source body never mentions them. -/
theorem decodeFeatures_ignores_loss_params (kNumFeatures kNumFramesPerPacket : ℕ)
    (getHop : ℕ → ℕ) (features : List ℚ) (decoder : LyraDecoderM)
    (acc : List ℤ) (plr abl plr' abl' : ℚ) :
    DecodeFeatures kNumFeatures kNumFramesPerPacket getHop features plr abl
        decoder acc =
      DecodeFeatures kNumFeatures kNumFramesPerPacket getHop features plr' abl'
        decoder acc := rfl

/-- C10: neither pipeline ever clears or overwrites the caller-supplied
accumulator — every defined run (success or failure) leaves the prior
elements in place, in order, and only appends after them. -/
theorem pipelines_append_only :
    (∀ (kNFP : ℕ) (create : Option LyraEncoderM) (data : List ℤ) (sr : ℕ)
        (pre : Bool) (acc out : List ℚ) (b : Bool),
      EncodeWav kNFP create data sr pre acc = some (out, b) →
      ∃ t, out = acc ++ t) ∧
    (∀ (kNF kNFP : ℕ) (getHop : ℕ → ℕ) (features : List ℚ) (plr abl : ℚ)
        (decoder : LyraDecoderM) (acc out : List ℤ) (b : Bool),
      DecodeFeatures kNF kNFP getHop features plr abl decoder acc
          = some (out, b) →
      ∃ t, out = acc ++ t) := by
  constructor
  · intro kNFP create data sr pre acc out b h
    cases create with
    | none =>
      simp [EncodeWav] at h
      exact ⟨[], by simp [← h.1]⟩
    | some encoder =>
      by_cases hfr : encoder.frameRate = 0
      · cases pre <;> simp [EncodeWav, hfr] at h
      · rw [encodeWav_some _ _ _ _ _ _ hfr] at h
        exact encodeLoop_acc _ _ data.length data le_rfl 0 acc out b h
  · intro kNF kNFP getHop features plr abl decoder acc out b h
    simp only [DecodeFeatures] at h
    exact decodeLoop_acc _ _ _ _ features.length features le_rfl 0 acc out b h

/-- C1: `DecodeFeatures` performs no multiple-of-`kNumFeatures` check.
On any feature vector with a nonempty remainder `r < kNumFeatures`, an
always-succeeding decoder drives the strided loop into a read past the
last complete packet (no defined result in the model) instead of the
explicit `InputShapeViolation` failure the spec mandates. -/
theorem decodeFeatures_no_shape_check (kNumFeatures kNumFramesPerPacket : ℕ)
    (getHop : ℕ → ℕ) (features : List ℚ) (plr abl : ℚ)
    (decoder : LyraDecoderM) (acc : List ℤ) (g : ℕ → List ℤ) (m r : ℕ)
    (hset : ∀ k p, decoder.setEncodedFeatures k p = true)
    (hdec : ∀ k c, decoder.decodeSamples k c = some (g k))
    (hlen : features.length = m * kNumFeatures + r) (hr0 : 0 < r)
    (hr : r < kNumFeatures) :
    DecodeFeatures kNumFeatures kNumFramesPerPacket getHop features plr abl
        decoder acc = none := by
  simp only [DecodeFeatures]
  exact decodeLoop_oob kNumFeatures _ _ _ r hset (fun k => ⟨g k, hdec k _⟩)
    hr0 hr m 0 features acc hlen

/-- C6: the frame-sizing computations perform no zero-frame-rate check:
with frame rate 0, `PacketSize` divides by zero in `float` (and the
final int cast of the resulting infinity has no defined value), and
`EncodeWav` performs an `int` division by zero computing the stride —
neither fails fast with an invalid-configuration error.  With a nonzero
frame rate `PacketSize` is a pure total computation. -/
theorem frame_sizing_no_zero_check :
    (∀ bitrate kNFP : ℕ, PacketSize bitrate 0 kNFP = none) ∧
    (∀ bitrate frameRate kNFP : ℕ, frameRate ≠ 0 →
      PacketSize bitrate frameRate kNFP
        = some (ceilFloat (bytesPerPacketF bitrate frameRate kNFP))) ∧
    (∀ (kNFP : ℕ) (encoder : LyraEncoderM) (data : List ℤ) (sr : ℕ)
        (pre : Bool) (acc : List ℚ), encoder.frameRate = 0 →
      EncodeWav kNFP (some encoder) data sr pre acc = none) := by
  refine ⟨fun bitrate kNFP => by simp [PacketSize],
    fun bitrate frameRate kNFP h => by simp [PacketSize, h],
    fun kNFP encoder data sr pre acc h => ?_⟩
  cases pre <;> simp [EncodeWav, h]

/-- Rounding-up natural division agrees with the rational ceiling. -/
theorem natCeilDiv_cast (M D : ℕ) (hD : D ≠ 0) :
    (((M + D - 1) / D : ℕ) : ℤ) = ⌈(M : ℚ) / (D : ℚ)⌉ := by
  have hD' : 0 < D := Nat.pos_of_ne_zero hD
  have hDQ : (0 : ℚ) < D := by exact_mod_cast hD'
  rw [eq_comm, Int.ceil_eq_iff]
  set q := (M + D - 1) / D with hq
  have h1 : q * D ≤ M + D - 1 := Nat.div_mul_le_self _ _
  have h2 : M + D - 1 < (q + 1) * D := (Nat.div_lt_iff_lt_mul hD').mp (Nat.lt_succ_self q)
  have h2' : M + D - 1 < q * D + D := by rw [Nat.succ_mul] at h2; exact h2
  have hMle : M ≤ q * D := by omega
  have hlt : q * D < M + D := by omega
  constructor
  · rw [lt_div_iff₀ hDQ]
    have c1 : ((q * D : ℕ) : ℚ) < ((M + D : ℕ) : ℚ) := by exact_mod_cast hlt
    push_cast at c1 ⊢
    linarith
  · rw [div_le_iff₀ hDQ]
    exact_mod_cast hMle

/-- The final `ceil`-and-cast of `PacketSize` computes the ceiling of
the value denoted by the represented binary32. -/
theorem ceilFloat_eq_ceil (x : ℕ × ℤ) :
    ((ceilFloat x : ℕ) : ℤ) = ⌈fracVal x⌉ := by
  obtain ⟨M, t⟩ := x
  by_cases ht : 0 ≤ t
  · simp only [ceilFloat, fracVal, pow2, ht, if_true]
    rw [show ((M : ℚ) * ((2 ^ t.toNat : ℕ) : ℚ)) = ((M * 2 ^ t.toNat : ℕ) : ℚ)
      by push_cast; ring]
    rw [Int.ceil_natCast]
  · simp only [ceilFloat, fracVal, pow2, ht, if_false]
    rw [mul_one_div]
    exact natCeilDiv_cast M _ (pow_ne_zero _ two_ne_zero)

/-- C5 (amended): whenever every intermediate binary32 rounding in
`PacketSize` is exact — so that the float preceding the final `ceil`
denotes exactly `bitrate × framesPerPacket / (frameRate × 8)` —
`PacketSize` returns the exact mathematical ceiling, the value the spec
prescribes. -/
theorem packetSize_exact_of_float_exact (bitrate frameRate kNFP : ℕ)
    (hF : frameRate ≠ 0)
    (hexact : fracVal (bytesPerPacketF bitrate frameRate kNFP)
      = ((bitrate : ℚ) * kNFP) / ((frameRate : ℚ) * 8)) :
    Option.map (fun n : ℕ => (n : ℤ)) (PacketSize bitrate frameRate kNFP)
      = PacketSizeSpec bitrate frameRate kNFP := by
  unfold PacketSize PacketSizeSpec
  rw [if_neg hF, if_neg hF, Option.map_some']
  rw [show (((ceilFloat (bytesPerPacketF bitrate frameRate kNFP) : ℕ) : ℤ))
      = ⌈fracVal (bytesPerPacketF bitrate frameRate kNFP)⌉
    from ceilFloat_eq_ceil _, hexact]

/-- C5 (witness): the spec's own example.  For bitrate 3000, frame rate
50 and one frame per packet every rounding is exact, `PacketSize`
matches the exact ceiling, and the result is 8 bytes. -/
theorem packetSize_example :
    (50 : ℕ) ≠ 0 ∧
    Option.map (fun n : ℕ => (n : ℤ)) (PacketSize 3000 50 1)
        = PacketSizeSpec 3000 50 1
      ∧ PacketSize 3000 50 1 = some 8 := by
  refine ⟨by decide, ?_, ?_⟩
  · refine packetSize_exact_of_float_exact 3000 50 1 (by decide) ?_
    have hb : bytesPerPacketF 3000 50 1 = (15728640, -21) := by decide
    rw [hb]
    show ((15728640 : ℕ) : ℚ) * pow2 (-21) = _
    have hp : pow2 (-21) = 1 / ((2097152 : ℕ) : ℚ) := by
      unfold pow2
      rw [if_neg (by decide), show ((-(-21 : ℤ)).toNat) = 21 from by decide]
      norm_num
    rw [hp]
    norm_num
  · decide

/-- C5 (counterexample): for bitrate 2^24 + 1 = 16777217 (frame rate 1,
one frame per packet) the conversion of the bitrate to `float` already
rounds to 2^24, and `PacketSize` returns 2097152, while the exact
mathematical ceiling of `16777217 × 1 / (1 × 8)` is 2097153. -/
theorem packetSize_float_counterexample :
    PacketSize 16777217 1 1 = some 2097152 ∧
    PacketSizeSpec 16777217 1 1 = some 2097153 := by
  constructor
  · decide
  · unfold PacketSizeSpec
    rw [if_neg (by decide)]
    congr 1
    rw [Int.ceil_eq_iff]
    constructor <;> norm_num

/-- C8 (counterexample): in the encode direction the audio container is
read before engine construction is attempted — even when construction
fails, the trace already contains the WAV read. -/
theorem encodeFile_io_before_create :
    EncodeFile 1 (some ([], 16000)) none false
      = some ([IOEvent.readWav, IOEvent.createEncoder], false) := rfl

/-- C8 (amended): in the decode direction engine construction is
attempted and checked before any container I/O, and its failure returns
failure with no I/O performed; in the encode direction the audio read
precedes construction, but a construction failure still returns failure
before any output I/O (no feature-matrix save happens). -/
theorem create_failure_before_output_io (kNumFeatures : ℕ) :
    (∀ (kNFP : ℕ) (getHop : ℕ → ℕ) (loaded : List ℚ) (plr abl : ℚ)
        (wOk : Bool),
      DecodeFile kNumFeatures kNFP getHop none loaded plr abl wOk
        = some ([IOEvent.createDecoder], false)) ∧
    (∀ (kNFP : ℕ) (readResult : Option (List ℤ × ℕ)) (pre : Bool)
        (trace : List IOEvent) (b : Bool),
      EncodeFile kNFP readResult none pre = some (trace, b) →
      b = false ∧ IOEvent.npzSave ∉ trace) := by
  constructor
  · intro kNFP getHop loaded plr abl wOk
    rfl
  · intro kNFP readResult pre trace b h
    cases readResult with
    | none =>
      simp only [EncodeFile, Option.some.injEq, Prod.mk.injEq] at h
      obtain ⟨h1, h2⟩ := h
      subst h1; subst h2
      exact ⟨rfl, by decide⟩
    | some p =>
      obtain ⟨samples, sr⟩ := p
      simp only [EncodeFile, EncodeWav, Option.some.injEq, Prod.mk.injEq] at h
      obtain ⟨h1, h2⟩ := h
      subst h1; subst h2
      exact ⟨rfl, by decide⟩

/-- C7: encoding an all-zero sample buffer of `m` windows with a
succeeding engine and then decoding the produced feature vector with a
succeeding decoder (returning `samplesPerPacket` samples per call)
yields exactly `m × samplesPerPacket` samples: the round trip preserves
the sample count. -/
theorem roundtrip_preserves_sample_count (kNumFeatures kNumFramesPerPacket : ℕ)
    (getHop : ℕ → ℕ) (encoder : LyraEncoderM) (decoder : LyraDecoderM)
    (f : ℕ → List ℤ → List ℚ) (g : ℕ → List ℤ) (sample_rate_hz m spp : ℕ)
    (plr abl : ℚ) (hfr : encoder.frameRate ≠ 0)
    (hspp : spp = kNumFramesPerPacket * sample_rate_hz / encoder.frameRate)
    (hspp0 : spp ≠ 0) (hkNF : kNumFeatures ≠ 0)
    (hhop : kNumFramesPerPacket * getHop decoder.sampleRateHz = spp)
    (hencS : ∀ k w, encoder.encodeRaw k w = some (f k w))
    (hflen : ∀ k w, (f k w).length = kNumFeatures)
    (hset : ∀ k p, decoder.setEncodedFeatures k p = true)
    (hdecS : ∀ k, decoder.decodeSamples k spp = some (g k))
    (hglen : ∀ k, (g k).length = spp) :
    ∃ feats audio,
      EncodeWav kNumFramesPerPacket (some encoder)
          (List.replicate (m * spp) 0) sample_rate_hz false []
        = some (feats, true) ∧
      feats.length = m * kNumFeatures ∧
      DecodeFeatures kNumFeatures kNumFramesPerPacket getHop feats plr abl
          decoder [] = some (audio, true) ∧
      audio.length = m * spp := by
  have hlen : (List.replicate (m * spp) (0 : ℤ)).length = m * spp + 0 := by
    simp
  have henc := encodeLoop_success spp encoder.encodeRaw f 0 hencS
    (Nat.pos_of_ne_zero hspp0) m 0 (List.replicate (m * spp) 0) [] hlen
  simp only [Nat.zero_add, List.nil_append] at henc
  have hFlen : ((List.range m).map (fun i =>
      f i (((List.replicate (m * spp) (0 : ℤ)).drop (i * spp)).take spp))).flatten.length
      = m * kNumFeatures := by
    rw [flatten_length_const kNumFeatures _ (by
      intro l hl
      simp only [List.mem_map] at hl
      obtain ⟨i, _, rfl⟩ := hl
      exact hflen _ _)]
    simp
  have hdec := decodeLoop_success kNumFeatures spp decoder.setEncodedFeatures
    decoder.decodeSamples g hset hdecS hkNF m 0
    ((List.range m).map (fun i =>
      f i (((List.replicate (m * spp) (0 : ℤ)).drop (i * spp)).take spp))).flatten
    [] hFlen
  simp only [Nat.zero_add, List.nil_append] at hdec
  refine ⟨((List.range m).map (fun i =>
      f i (((List.replicate (m * spp) (0 : ℤ)).drop (i * spp)).take spp))).flatten,
    ((List.range m).map (fun i => g i)).flatten, ?_, hFlen, ?_, ?_⟩
  · rw [encodeWav_some _ _ _ _ _ _ hfr, ← hspp]
    exact henc
  · simp only [DecodeFeatures]
    rw [hhop]
    exact hdec
  · rw [flatten_length_const spp _ (by
      intro l hl
      simp only [List.mem_map] at hl
      obtain ⟨i, _, rfl⟩ := hl
      exact hglen _)]
    simp

/-! ### Witnesses: each hypothesis-bearing claim theorem evaluated at a
concrete input. -/

/-- Witness for C2: a 7-sample buffer, stride 3 (frame rate 1, sample
rate 3, one frame per packet): two windows are encoded, one trailing
sample is dropped, and the run succeeds. -/
theorem encodeWav_exact_windows_witness :
    (1 : ℕ) < 3 ∧
    ∃ out,
      EncodeWav 1 (some ⟨1, fun k _ => some [(k : ℚ)]⟩) (List.replicate 7 0) 3
          false [] = some (out, true) ∧
      out = [] ++ List.flatten ((List.range 2).map (fun i => [(i : ℚ)])) ∧
      out.length = List.length ([] : List ℚ) + 2 * 1 :=
  ⟨by decide,
    encodeWav_exact_windows 1 1 ⟨1, fun k _ => some [(k : ℚ)]⟩
      (fun k _ => [(k : ℚ)]) (List.replicate 7 0) 3 false [] 2 1 3
      (by decide) rfl rfl (by decide) (fun _ _ => rfl) (fun _ _ => rfl)⟩

/-- Witness for C3: the engine answers window 0 and refuses window 1 of
a 6-sample buffer (stride 3): failure, with exactly the first packet
accumulated. -/
theorem encodeWav_abort_on_window_failure_witness :
    (1 + 1) * 3 ≤ (List.replicate 6 (0 : ℤ)).length ∧
    ∃ out,
      EncodeWav 1
          (some ⟨1, fun k _ => if k = 0 then some [(0 : ℚ)] else none⟩)
          (List.replicate 6 0) 3 false [] = some (out, false) ∧
      out = [] ++ List.flatten ((List.range 1).map (fun _ => [(0 : ℚ)])) ∧
      out.length = List.length ([] : List ℚ) + 1 * 1 :=
  ⟨by decide,
    encodeWav_abort_on_window_failure 1 1
      ⟨1, fun k _ => if k = 0 then some [(0 : ℚ)] else none⟩
      (fun _ => [(0 : ℚ)]) (List.replicate 6 0) 3 false [] 1 3
      (by decide) rfl (by decide) (by decide)
      (by
        intro k hk
        have hk0 : k = 0 := by omega
        subst hk0
        rfl)
      rfl (fun _ => rfl)⟩

/-- Witness for C4: the success half on a one-packet feature vector
(packet width 1, 2 samples per packet), and the failure half with
`SetEncodedFeatures` refusing the very first packet. -/
theorem decodeFeatures_mirror_witness :
    ((1 : ℕ) ≠ 0) ∧
    (∃ out,
      DecodeFeatures 1 1 (fun _ => 2) [(0 : ℚ)] 0 0
          ⟨1, 1, fun _ _ => true, fun _ _ => some [(0 : ℤ), 0]⟩ []
        = some (out, true) ∧
      out = [] ++ List.flatten ((List.range 1).map (fun _ => [(0 : ℤ), 0])) ∧
      out.length = List.length ([] : List ℤ) + 1 * 2) ∧
    (∃ out,
      DecodeFeatures 1 1 (fun _ => 2) [(0 : ℚ)] 0 0
          ⟨1, 1, fun _ _ => false, fun _ _ => some [(0 : ℤ), 0]⟩ []
        = some (out, false) ∧
      out = [] ++ List.flatten ((List.range 0).map (fun _ => [(0 : ℤ), 0])) ∧
      out.length = List.length ([] : List ℤ) + 0 * 2) :=
  ⟨by decide,
    (decodeFeatures_mirror 1 1 (fun _ => 2)).1
      ⟨1, 1, fun _ _ => true, fun _ _ => some [(0 : ℤ), 0]⟩ [(0 : ℚ)]
      (fun _ => [(0 : ℤ), 0]) 0 0 [] 1 2 rfl (by decide) rfl
      (fun _ _ => rfl) (fun _ => rfl) (fun _ => rfl),
    (decodeFeatures_mirror 1 1 (fun _ => 2)).2
      ⟨1, 1, fun _ _ => false, fun _ _ => some [(0 : ℤ), 0]⟩ [(0 : ℚ)]
      (fun _ => [(0 : ℤ), 0]) 0 0 [] 0 2 rfl (by decide) (by decide)
      (fun k hk => absurd hk (Nat.not_lt_zero k)) (Or.inl rfl)
      (fun _ => rfl)⟩

/-- Witness for C10: concrete one-window runs of both pipelines starting
from nonempty accumulators; the prior element survives in place. -/
theorem pipelines_append_only_witness :
    (EncodeWav 1 (some ⟨1, fun _ _ => some [(5 : ℚ)]⟩) [0] 1 false [(3 : ℚ)]
        = some ([(3 : ℚ), 5], true) ∧
      ∃ t, [(3 : ℚ), 5] = [(3 : ℚ)] ++ t) ∧
    (DecodeFeatures 1 1 (fun _ => 1) [(7 : ℚ)] 0 0
          ⟨1, 1, fun _ _ => true, fun _ _ => some [(9 : ℤ)]⟩ [(4 : ℤ)]
        = some ([(4 : ℤ), 9], true) ∧
      ∃ t, [(4 : ℤ), 9] = [(4 : ℤ)] ++ t) := by
  have he : EncodeWav 1 (some ⟨1, fun _ _ => some [(5 : ℚ)]⟩) [0] 1 false
      [(3 : ℚ)] = some ([(3 : ℚ), 5], true) := by
    simp [EncodeWav, encodeLoop]
  have hd : DecodeFeatures 1 1 (fun _ => 1) [(7 : ℚ)] 0 0
      ⟨1, 1, fun _ _ => true, fun _ _ => some [(9 : ℤ)]⟩ [(4 : ℤ)]
      = some ([(4 : ℤ), 9], true) := by
    simp [DecodeFeatures, decodeLoop]
  exact ⟨⟨he, pipelines_append_only.1 1 _ [0] 1 false [(3 : ℚ)] _ true he⟩,
    ⟨hd, pipelines_append_only.2 1 1 (fun _ => 1) [(7 : ℚ)] 0 0 _ [(4 : ℤ)] _
      true hd⟩⟩

/-- Witness for C1: a 3-value feature vector with packet width 2 and an
always-succeeding decoder has no defined result — the loop runs into the
trailing half packet. -/
theorem decodeFeatures_no_shape_check_witness :
    (0 : ℕ) < 1 ∧ (1 : ℕ) < 2 ∧
    DecodeFeatures 2 1 (fun _ => 1) [0, 0, 0] 0 0
        ⟨1, 1, fun _ _ => true, fun _ _ => some []⟩ [] = none :=
  ⟨by decide, by decide,
    decodeFeatures_no_shape_check 2 1 (fun _ => 1) [0, 0, 0] 0 0
      ⟨1, 1, fun _ _ => true, fun _ _ => some []⟩ [] (fun _ => []) 1 1
      (fun _ _ => rfl) (fun _ _ => rfl) rfl (by decide) (by decide)⟩

/-- Witness for C6: `PacketSize` at frame rate 0 and at frame rate 50,
and `EncodeWav` with a zero-frame-rate engine. -/
theorem frame_sizing_no_zero_check_witness :
    (50 : ℕ) ≠ 0 ∧
    PacketSize 3000 0 1 = none ∧
    PacketSize 3000 50 1 = some (ceilFloat (bytesPerPacketF 3000 50 1)) ∧
    EncodeWav 1 (some ⟨0, fun _ _ => none⟩) [] 16000 false [] = none :=
  ⟨by decide, frame_sizing_no_zero_check.1 3000 1,
    frame_sizing_no_zero_check.2.1 3000 50 1 (by decide),
    frame_sizing_no_zero_check.2.2 1 ⟨0, fun _ _ => none⟩ [] 16000 false []
      rfl⟩

/-- Witness for C8 (amended): the decode direction with a failed
construction performs no I/O, and the encode direction with a failed
construction saves nothing. -/
theorem create_failure_before_output_io_witness :
    DecodeFile 1 1 (fun _ => 1) none [] 0 0 true
        = some ([IOEvent.createDecoder], false) ∧
    (false = false ∧
      IOEvent.npzSave ∉ [IOEvent.readWav, IOEvent.createEncoder]) :=
  ⟨(create_failure_before_output_io 1).1 1 (fun _ => 1) [] 0 0 true,
    (create_failure_before_output_io 1).2 1 (some ([], 16000)) false
      [IOEvent.readWav, IOEvent.createEncoder] false rfl⟩

/-- Witness for C7: two windows of one sample each survive the round
trip with the sample count preserved. -/
theorem roundtrip_preserves_sample_count_witness :
    (1 : ℕ) ≠ 0 ∧
    ∃ feats audio,
      EncodeWav 1 (some ⟨1, fun _ _ => some [(0 : ℚ)]⟩)
          (List.replicate (2 * 1) 0) 1 false [] = some (feats, true) ∧
      feats.length = 2 * 1 ∧
      DecodeFeatures 1 1 (fun _ => 1) feats 0 0
          ⟨1, 1, fun _ _ => true, fun _ _ => some [(0 : ℤ)]⟩ []
        = some (audio, true) ∧
      audio.length = 2 * 1 :=
  ⟨by decide,
    roundtrip_preserves_sample_count 1 1 (fun _ => 1)
      ⟨1, fun _ _ => some [(0 : ℚ)]⟩
      ⟨1, 1, fun _ _ => true, fun _ _ => some [(0 : ℤ)]⟩
      (fun _ _ => [(0 : ℚ)]) (fun _ => [(0 : ℤ)]) 1 2 1 0 0
      (by decide) rfl (by decide) (by decide) rfl
      (fun _ _ => rfl) (fun _ _ => rfl) (fun _ _ => rfl) (fun _ => rfl)
      (fun _ => rfl)⟩

end Lyra
